import Mathlib

/-!
Shallow embedding of the AES-256 image encryption repository
(crypto_utils.py and analysis.py) together with proofs about the
frozen specification claims.

External library routines (PBKDF2, the AES block primitive, float log2
and sqrt) are not code of this repository; they enter as explicit
function parameters, with the properties the claims need stated as
hypotheses.  Everything that the repository itself computes (padding,
CBC chaining, container framing, the statistics and the scoring) is
translated directly from the Python source.
-/

namespace ImgEnc

/-- Byte values 0..255, the elements of a Python bytes object. -/
abbrev Byte := Fin 256

/-- CryptoError raised by the functions of crypto_utils. -/
structure CryptoError where
  msg : String
deriving DecidableEq

/-- AnalysisError raised by the functions of the analysis module. -/
structure AnalysisError where
  msg : String
deriving DecidableEq

/-- Decidable equality of Except results, used to evaluate concrete
runs of the embedded functions. -/
instance {ε : Type u} {α : Type v} [DecidableEq ε] [DecidableEq α] :
    DecidableEq (Except ε α)
  | .error a, .error b =>
    if h : a = b then .isTrue (congrArg Except.error h)
    else .isFalse (fun hc => h (Except.error.inj hc))
  | .error _, .ok _ => .isFalse (fun hc => Except.noConfusion hc)
  | .ok _, .error _ => .isFalse (fun hc => Except.noConfusion hc)
  | .ok a, .ok b =>
    if h : a = b then .isTrue (congrArg Except.ok h)
    else .isFalse (fun hc => h (Except.ok.inj hc))

/-- Bytewise xor, as performed inside CBC mode on 16-byte blocks. -/
def bxor (x y : Byte) : Byte :=
  ⟨Nat.xor x.val y.val, by
    have hx : x.val < 2 ^ 8 := by have := x.isLt; omega
    have hy : y.val < 2 ^ 8 := by have := y.isLt; omega
    have h : Nat.bitwise bne x.val y.val < 2 ^ 8 :=
      Nat.bitwise_lt_two_pow hx hy
    have he : Nat.xor x.val y.val = Nat.bitwise bne x.val y.val := rfl
    omega⟩

/-- Xor of two byte strings, truncated to the shorter one (the CBC code
only ever xors equal-length 16-byte blocks). -/
def xorBytes (a b : List Byte) : List Byte :=
  List.zipWith bxor a b

/-- derive_key from crypto_utils.  The PBKDF2-HMAC-SHA256 call of the
external crypto library is the parameter prf (password, salt, iteration
count to 32-byte key); the bytes os.urandom would return are the
parameter rand.  Python tests the salt argument for truthiness, so None
and the empty byte string both trigger fresh salt generation. -/
def derive_key (prf : String → List Byte → Nat → List Byte)
    (password : String) (salt : Option (List Byte)) (iterations : Nat)
    (rand : List Byte) : Except CryptoError (List Byte × List Byte) :=
  let salt := match salt with
    | none => rand
    | some s => if s = [] then rand else s
  if password = "" then .error ⟨"Invalid password provided"⟩
  else .ok (prf password salt iterations, salt)

/-- The PKCS#7 pad byte for a buffer of length n: the value 16 - n mod
16, always in 1..16. -/
def padByte (n : Nat) : Byte := ⟨16 - n % 16, by omega⟩

/-- PKCS#7 padding of the crypto library with block size 16: append
k copies of the byte k, where k = 16 - len mod 16 (a full extra block
when the length is already a multiple of 16). -/
def pkcs7pad (data : List Byte) : List Byte :=
  data ++ List.replicate (16 - data.length % 16) (padByte data.length)

/-- PKCS#7 unpadding of the crypto library with block size 16: the
input must be a non-empty multiple of 16 bytes, the last byte k must lie
in 1..16 and the last k bytes must all equal k. -/
def pkcs7unpad (data : List Byte) : Except CryptoError (List Byte) :=
  if data.length = 0 then .error ⟨"Zero-length input cannot be unpadded"⟩
  else if data.length % 16 ≠ 0 then .error ⟨"Input data is not padded"⟩
  else
    match data.getLast? with
    | none => .error ⟨"Zero-length input cannot be unpadded"⟩
    | some last =>
      if last.val < 1 ∨ 16 < last.val then .error ⟨"Padding is incorrect"⟩
      else if data.drop (data.length - last.val) =
          List.replicate last.val last then
        .ok (data.take (data.length - last.val))
      else .error ⟨"PKCS#7 padding is incorrect"⟩

/-- CBC encryption over a list of 16-byte blocks: xor each plaintext
block with the previous ciphertext block (the IV at the start), then
apply the keyed block cipher E. -/
def cbcEncBlocks (E : List Byte → List Byte) :
    List Byte → List (List Byte) → List (List Byte)
  | _, [] => []
  | prev, b :: bs =>
    let c := E (xorBytes b prev)
    c :: cbcEncBlocks E c bs

/-- CBC decryption over a list of 16-byte blocks: apply the keyed block
cipher inverse D, then xor with the previous ciphertext block. -/
def cbcDecBlocks (D : List Byte → List Byte) :
    List Byte → List (List Byte) → List (List Byte)
  | _, [] => []
  | prev, c :: cs => xorBytes (D c) prev :: cbcDecBlocks D c cs

/-- Cut a byte string into consecutive 16-byte chunks; the fuel argument
(always the length of the list) makes the recursion structural. -/
def toBlocksAux : Nat → List Byte → List (List Byte)
  | 0, _ => []
  | _ + 1, [] => []
  | fuel + 1, a :: rest =>
    (a :: rest).take 16 :: toBlocksAux fuel ((a :: rest).drop 16)

/-- Cut a byte string into consecutive 16-byte chunks, the way the block
cipher of the crypto library consumes its CBC input. -/
def toBlocks (l : List Byte) : List (List Byte) :=
  toBlocksAux l.length l

/-- encrypt_image from crypto_utils.  E is the keyed AES-256 block
encryption of the external library, prf its PBKDF2; saltR and ivR are
the outputs of the two os.urandom(16) calls. -/
def encrypt_image (E : List Byte → List Byte → List Byte)
    (prf : String → List Byte → Nat → List Byte)
    (saltR ivR : List Byte) (image_data : List Byte) (password : String) :
    Except CryptoError (List Byte × List Byte × List Byte) :=
  match derive_key prf password none 200000 saltR with
  | .error e => .error ⟨"Encryption failed: " ++ e.msg⟩
  | .ok (key, salt) =>
    let iv := ivR
    let padded := pkcs7pad image_data
    let encrypted := (cbcEncBlocks (E key) iv (toBlocks padded)).flatten
    .ok (salt, iv, encrypted)

/-- decrypt_image from crypto_utils.  D is the keyed AES-256 block
decryption of the external library; rand is what os.urandom would
return if derive_key had to regenerate the salt (a falsy salt).  The
cipher of the library rejects input whose length is not a multiple of
16 before unpadding runs. -/
def decrypt_image (D : List Byte → List Byte → List Byte)
    (prf : String → List Byte → Nat → List Byte) (rand : List Byte)
    (encrypted_data salt iv : List Byte) (password : String) :
    Except CryptoError (List Byte) :=
  match derive_key prf password (some salt) 200000 rand with
  | .error e => .error ⟨"Decryption failed: " ++ e.msg⟩
  | .ok (key, _) =>
    if encrypted_data.length % 16 ≠ 0 then
      .error ⟨"Decryption failed: Data must be padded to 16 byte boundary in CBC mode"⟩
    else
      let decrypted_padded :=
        (cbcDecBlocks (D key) iv (toBlocks encrypted_data)).flatten
      match pkcs7unpad decrypted_padded with
      | .error e => .error ⟨"Decryption failed: " ++ e.msg⟩
      | .ok d => .ok d

/-- combine_encrypted_data from crypto_utils: plain concatenation. -/
def combine_encrypted_data (salt iv encrypted_data : List Byte) :
    List Byte :=
  salt ++ iv ++ encrypted_data

/-- split_encrypted_data from crypto_utils: reject buffers shorter than
32 bytes, otherwise slice off the 16-byte salt and 16-byte IV. -/
def split_encrypted_data (combined_data : List Byte) :
    Except CryptoError (List Byte × List Byte × List Byte) :=
  if combined_data.length < 32 then
    .error ⟨"Invalid encrypted data format"⟩
  else
    .ok (combined_data.take 16, (combined_data.drop 16).take 16,
      combined_data.drop 32)

/-- Model of an IEEE float produced by the numpy paths the analysis
module takes: either an exact rational value or NaN (none).  Numpy
division of zero by zero and statistics over empty slices produce NaN
together with a runtime warning, never an exception. -/
abbrev RF := Option ℚ

/-- Absolute value on the float model; abs of NaN is NaN. -/
def RF.abs : RF → RF
  | none => none
  | some q => some |q|

/-- Comparison x < c on the float model: every comparison with NaN is
false. -/
def RF.ltQ : RF → ℚ → Bool
  | none, _ => false
  | some q, c => decide (q < c)

/-- Comparison x > c on the float model: every comparison with NaN is
false. -/
def RF.gtQ : RF → ℚ → Bool
  | none, _ => false
  | some q, c => decide (c < q)

/-- np.bincount with minlength 256: occurrences of byte value i. -/
def bincount (data : List Byte) (i : Nat) : Nat :=
  data.countP (fun b => b.val == i)

/-- calculate_entropy from the analysis module; log2f stands for the
float base-2 logarithm.  On the empty buffer the numpy division 0/0
yields NaN probabilities (a RuntimeWarning, not an exception), NaN
fails the positivity filter, and the empty sum makes the result -0.0;
no step raises, so the except branch producing AnalysisError is dead
on every input. -/
def calculate_entropy (log2f : ℚ → ℚ) (data : List Byte) :
    Except AnalysisError ℚ :=
  let probs : List RF :=
    (List.range 256).map (fun i =>
      if data.length = 0 then none
      else some ((bincount data i : ℚ) / (data.length : ℚ)))
  let kept : List ℚ := probs.filterMap (fun p =>
    match p with
    | none => none
    | some q => if 0 < q then some q else none)
  .ok (-(kept.map (fun q => q * log2f q)).sum)

/-- Mean of a rational list (callers divide by a positive length). -/
def qmean (l : List ℚ) : ℚ := l.sum / (l.length : ℚ)

/-- Model of np.corrcoef(x, y)[0, 1] on two equal-length 1-D float
arrays with non-NaN entries: NaN for fewer than two samples or when
either argument has zero variance (the library divides 0 by 0 there),
otherwise the Pearson coefficient; sqrtf stands for the float square
root applied to the two second-moment sums. -/
def corrcoef (sqrtf : ℚ → ℚ) (x y : List ℚ) : RF :=
  if x.length ≤ 1 then none
  else
    let mx := qmean x
    let my := qmean y
    let sxx := (x.map (fun a => (a - mx) * (a - mx))).sum
    let syy := (y.map (fun a => (a - my) * (a - my))).sum
    let sxy := (List.zipWith (fun a b => (a - mx) * (b - my)) x y).sum
    if sxx = 0 ∨ syy = 0 then none
    else some (sxy / (sqrtf sxx * sqrtf syy))

/-- calculate_correlation from the analysis module on a 2-D grayscale
array, the only shape analyze_encryption_strength passes (the
channel-averaging branch for 3-D input is not reached from there).
Rows of the list are the array rows; flattening is row-major as in
numpy, and the three direction pairs are the slicings of the source. -/
def calculate_correlation (sqrtf : ℚ → ℚ) (image : List (List ℚ)) :
    Except AnalysisError (RF × RF × RF) :=
  let horiz := corrcoef sqrtf (image.map List.dropLast).flatten
    (image.map (List.drop 1)).flatten
  let vert := corrcoef sqrtf image.dropLast.flatten
    (image.drop 1).flatten
  let diag := corrcoef sqrtf (image.dropLast.map List.dropLast).flatten
    ((image.drop 1).map (List.drop 1)).flatten
  .ok (horiz, vert, diag)

/-- A numpy array of bytes: a shape and row-major data whose length is
the product of the shape. -/
structure NPArray where
  shape : List Nat
  data : List Byte
  size_eq : data.length = shape.prod

/-- calculate_npcr_uaci from the analysis module.  On arrays of size 0
both numpy scalar divisions are 0/0 = NaN (warning, no exception); the
dimension check is the only raising path. -/
def calculate_npcr_uaci (original encrypted : NPArray) :
    Except AnalysisError (RF × RF) :=
  if original.shape ≠ encrypted.shape then
    .error ⟨"NPCR/UACI calculation failed: Images must have the same dimensions"⟩
  else
    let size := original.shape.prod
    let diffSum : ℚ :=
      (List.zipWith (fun a b => if a = b then (0 : ℚ) else 1)
        original.data encrypted.data).sum
    let absSum : ℚ :=
      (List.zipWith (fun a b => |(a.val : ℚ) - (b.val : ℚ)|)
        original.data encrypted.data).sum
    let npcr : RF :=
      if size = 0 then none else some (100 * diffSum / (size : ℚ))
    let uaci : RF :=
      if size = 0 then none else some (100 * absSum / (255 * (size : ℚ)))
    .ok (npcr, uaci)

/-- np.mean over a list of floats: NaN when the list is empty or has a
NaN entry. -/
def meanRF (l : List RF) : RF :=
  if l.any (fun x => x.isNone) ∨ l = [] then none
  else some ((l.filterMap id).sum / (l.length : ℚ))

/-- The scoring block of analyze_encryption_strength.  The entropy the
code compares is a plain float; the average correlation and the NPCR
may be NaN, and a comparison with NaN is false (adds no points). -/
def strength_score (entropy : ℚ) (avgCorr npcr : RF) : Nat :=
  (if 79 / 10 < entropy then 2 else if 15 / 2 < entropy then 1 else 0) +
  (if RF.ltQ avgCorr (1 / 10) then 2
    else if RF.ltQ avgCorr (3 / 10) then 1 else 0) +
  (if RF.gtQ npcr 99 then 2 else if RF.gtQ npcr 90 then 1 else 0)

/-- The verdict selection of analyze_encryption_strength. -/
def verdict_of (score : Nat) : String :=
  if 5 ≤ score then "Strong" else if 3 ≤ score then "Moderate" else "Weak"

/-- reshape(-1, 1): a byte buffer as an n-by-1 numpy array. -/
def singleColumn (data : List Byte) : NPArray :=
  ⟨[data.length, 1], data, by simp⟩

/-- The result record built by analyze_encryption_strength. -/
structure AnalysisResult where
  entropy : ℚ
  horizontal : RF
  vertical : RF
  diagonal : RF
  npcr : RF
  uaci : RF
  verdict : String
deriving DecidableEq

/-- analyze_encryption_strength from the analysis module: entropy of
the encrypted bytes, correlations of the encrypted bytes reshaped to a
single column, NPCR/UACI of the two buffers reshaped likewise, then the
score and verdict. -/
def analyze_encryption_strength (log2f sqrtf : ℚ → ℚ)
    (original_data encrypted_data : List Byte) :
    Except AnalysisError AnalysisResult :=
  match calculate_entropy log2f encrypted_data with
  | .error e => .error ⟨"Encryption strength analysis failed: " ++ e.msg⟩
  | .ok entropyV =>
    match calculate_correlation sqrtf
        (encrypted_data.map (fun b => [(b.val : ℚ)])) with
    | .error e => .error ⟨"Encryption strength analysis failed: " ++ e.msg⟩
    | .ok (h, v, d) =>
      match calculate_npcr_uaci (singleColumn original_data)
          (singleColumn encrypted_data) with
      | .error e => .error ⟨"Encryption strength analysis failed: " ++ e.msg⟩
      | .ok (npcrV, uaciV) =>
        let avg := meanRF [RF.abs h, RF.abs v, RF.abs d]
        let score := strength_score entropyV avg npcrV
        .ok ⟨entropyV, h, v, d, npcrV, uaciV, verdict_of score⟩

/-- Spec-side scoring of the entropy row, written after the table of
the specification (entropy above 7.9 gives 2 points, entropy in the
half-open interval from 7.5 to 7.9 gives 1). -/
def spec_entropy_points (e : ℚ) : Nat :=
  if 79 / 10 < e then 2
  else if 15 / 2 < e ∧ e ≤ 79 / 10 then 1 else 0

/-- Spec-side scoring of the correlation row of the table. -/
def spec_corr_points (m : ℚ) : Nat :=
  if m < 1 / 10 then 2
  else if 1 / 10 ≤ m ∧ m < 3 / 10 then 1 else 0

/-- Spec-side scoring of the NPCR row of the table. -/
def spec_npcr_points (n : ℚ) : Nat :=
  if 99 < n then 2 else if 90 < n ∧ n ≤ 99 then 1 else 0

/-- Spec-side verdict: total at least 5 is Strong, at least 3 is
Moderate, anything else Weak. -/
def spec_verdict (e m n : ℚ) : String :=
  let s := spec_entropy_points e + spec_corr_points m + spec_npcr_points n
  if 5 ≤ s then "Strong" else if 3 ≤ s then "Moderate" else "Weak"

/-- Spec-side NPCR: 100 times the count of positions where the values
differ, divided by the total number of positions. -/
def spec_npcr (a b : NPArray) : ℚ :=
  100 * (((a.data.zip b.data).countP (fun p => p.1 != p.2) : ℚ)) /
    (a.shape.prod : ℚ)

/-- Spec-side UACI: 100 times the sum of absolute value differences,
divided by 255 times the total number of positions. -/
def spec_uaci (a b : NPArray) : ℚ :=
  100 * ((a.data.zip b.data).map
    (fun p => |(p.1.val : ℚ) - (p.2.val : ℚ)|)).sum /
    (255 * (a.shape.prod : ℚ))

/-! ## Helper lemmas -/

theorem split_combine_eq (s i c : List Byte) (hs : s.length = 16)
    (hi : i.length = 16) :
    split_encrypted_data (combine_encrypted_data s i c) = .ok (s, i, c) := by
  have hassoc : combine_encrypted_data s i c = s ++ (i ++ c) := by
    simp [combine_encrypted_data]
  have hlen : (s ++ (i ++ c)).length = 32 + c.length := by
    simp [hs, hi]; omega
  have htake : (s ++ (i ++ c)).take 16 = s := List.take_left' hs
  have hdrop16 : (s ++ (i ++ c)).drop 16 = i ++ c := List.drop_left' hs
  have hmid : (i ++ c).take 16 = i := List.take_left' hi
  have hdrop32 : (s ++ (i ++ c)).drop 32 = c := by
    rw [show (32 : Nat) = 16 + 16 from rfl, ← List.drop_drop, hdrop16]
    exact List.drop_left' hi
  rw [hassoc]
  simp only [split_encrypted_data]
  rw [if_neg (by omega), htake, hdrop16, hmid, hdrop32]

/-! ## Claim theorems -/

/-- C6: for every 16-byte salt s, every 16-byte iv i and every byte
buffer c (the empty one included), split_encrypted_data applied to
combine_encrypted_data s i c returns exactly (s, i, c). -/
theorem C6_split_combine_roundtrip (s i c : List Byte)
    (hs : s.length = 16) (hi : i.length = 16) :
    split_encrypted_data (combine_encrypted_data s i c) = .ok (s, i, c) :=
  split_combine_eq s i c hs hi

/-- Witness for C6 at concrete 16-byte salt and iv and empty
ciphertext. -/
theorem C6_split_combine_roundtrip_witness :
    (List.replicate 16 (0 : Byte)).length = 16 ∧
    (List.replicate 16 (1 : Byte)).length = 16 ∧
    split_encrypted_data (combine_encrypted_data
      (List.replicate 16 (0 : Byte)) (List.replicate 16 (1 : Byte)) []) =
      .ok (List.replicate 16 (0 : Byte), List.replicate 16 (1 : Byte), []) :=
  ⟨by decide, by decide,
    C6_split_combine_roundtrip _ _ _ (by decide) (by decide)⟩

/-- C7: split_encrypted_data fails with the malformed-container error
exactly on buffers shorter than 32 bytes; on every buffer of length at
least 32 it returns bytes 0..16 as salt, 16..32 as iv and the rest as
ciphertext. -/
theorem C7_split_short_buffer :
    (∀ l : List Byte, l.length < 32 →
      split_encrypted_data l = .error ⟨"Invalid encrypted data format"⟩) ∧
    (∀ l : List Byte, 32 ≤ l.length →
      split_encrypted_data l =
        .ok (l.take 16, (l.drop 16).take 16, l.drop 32)) := by
  constructor
  · intro l h
    simp [split_encrypted_data, h]
  · intro l h
    simp only [split_encrypted_data]
    rw [if_neg (by omega)]

/-- Witness for C7: a 31-byte buffer is rejected, a 32-byte buffer is
split into its three slices. -/
theorem C7_split_short_buffer_witness :
    split_encrypted_data (List.replicate 31 (0 : Byte)) =
      .error ⟨"Invalid encrypted data format"⟩ ∧
    split_encrypted_data (List.replicate 32 (0 : Byte)) =
      .ok ((List.replicate 32 (0 : Byte)).take 16,
        ((List.replicate 32 (0 : Byte)).drop 16).take 16,
        (List.replicate 32 (0 : Byte)).drop 32) :=
  ⟨C7_split_short_buffer.1 _ (by decide),
    C7_split_short_buffer.2 _ (by decide)⟩

/-- C5 counterexample: the claim quantifies over every salt value, but
for the empty salt two calls of derive_key with identical (password,
salt, iterations) arguments observe different os.urandom output and
return different keys.  Here PBKDF2 is instantiated with a function for
which the two derived keys visibly differ. -/
theorem C5_counterexample :
    derive_key (fun _ s _ => s) "pw" (some []) 200000
        (List.replicate 16 (0 : Byte)) =
      .ok (List.replicate 16 (0 : Byte), List.replicate 16 (0 : Byte)) ∧
    derive_key (fun _ s _ => s) "pw" (some []) 200000
        (List.replicate 16 (1 : Byte)) =
      .ok (List.replicate 16 (1 : Byte), List.replicate 16 (1 : Byte)) ∧
    List.replicate 16 (0 : Byte) ≠ List.replicate 16 (1 : Byte) :=
  ⟨rfl, rfl, by decide⟩

/-- C5 amended: derive_key is deterministic for every password, every
NON-EMPTY salt and every iteration count; the derived key and returned
salt do not depend on the random bytes the system would supply. -/
theorem C5_derive_key_deterministic
    (prf : String → List Byte → Nat → List Byte) (pw : String)
    (s : List Byte) (hs : s ≠ []) (iters : Nat) (r1 r2 : List Byte) :
    derive_key prf pw (some s) iters r1 =
      derive_key prf pw (some s) iters r2 := by
  simp [derive_key, hs]

/-- Witness for the amended C5 at a concrete 16-byte salt and two
distinct random streams. -/
theorem C5_derive_key_deterministic_witness :
    List.replicate 16 (7 : Byte) ≠ [] ∧
    derive_key (fun _ s _ => s) "a" (some (List.replicate 16 (7 : Byte)))
        200000 (List.replicate 16 (2 : Byte)) =
      derive_key (fun _ s _ => s) "a" (some (List.replicate 16 (7 : Byte)))
        200000 (List.replicate 16 (3 : Byte)) :=
  ⟨by decide, C5_derive_key_deterministic _ _ _ (by decide) _ _ _⟩

/-- C10: derive_key tests the salt for truthiness, so a supplied empty
salt behaves exactly like an absent salt: the fresh random bytes become
the salt (so the returned salt is the random stream, not the supplied
empty argument), and two calls with these identical arguments can
return different keys. -/
theorem C10_empty_salt_regenerated
    (prf : String → List Byte → Nat → List Byte) (pw : String)
    (iters : Nat) (rand : List Byte) :
    derive_key prf pw (some []) iters rand =
      derive_key prf pw none iters rand ∧
    (pw ≠ "" → derive_key prf pw (some []) iters rand =
      .ok (prf pw rand iters, rand)) ∧
    (∃ f r1 r2 k1 k2 s1 s2,
      derive_key f "a" (some []) 200000 r1 = .ok (k1, s1) ∧
      derive_key f "a" (some []) 200000 r2 = .ok (k2, s2) ∧ k1 ≠ k2) := by
  refine ⟨rfl, fun hpw => by simp [derive_key, hpw], ?_⟩
  exact ⟨fun _ s _ => s, List.replicate 16 (0 : Byte),
    List.replicate 16 (1 : Byte), _, _, _, _, rfl, rfl, by decide⟩

/-- Witness for C10 at a concrete password and random stream. -/
theorem C10_empty_salt_regenerated_witness :
    derive_key (fun _ s _ => s) "a" (some []) 200000
        (List.replicate 16 (5 : Byte)) =
      .ok (List.replicate 16 (5 : Byte), List.replicate 16 (5 : Byte)) :=
  (C10_empty_salt_regenerated (fun _ s _ => s) "a" 200000
    (List.replicate 16 (5 : Byte))).2.1 (by decide)

/-- C4 counterexample: on the empty buffer calculate_entropy does not
raise AnalysisError; the numpy division 0/0 only warns and yields NaN
probabilities, which the positivity filter removes, so the function
returns the numeric value -0.0 = 0. -/
theorem C4_counterexample :
    calculate_entropy (fun q => q) [] = .ok 0 := by
  decide

theorem filterMap_const_none {α β : Type} (l : List α) :
    l.filterMap (fun _ => (none : Option β)) = [] := by
  induction l with
  | nil => rfl
  | cons a t ih => simp [List.filterMap_cons, ih]

set_option maxRecDepth 8192 in
theorem calculate_entropy_nil (log2f : ℚ → ℚ) :
    calculate_entropy log2f [] = .ok 0 := by
  unfold calculate_entropy
  simp [List.filterMap_map, Function.comp, filterMap_const_none]

/-- C4 amended: calculate_entropy applied to the empty byte buffer
returns the numeric value 0.0 (for every instantiation of the float
log2), rather than failing with AnalysisError. -/
theorem C4_empty_entropy (log2f : ℚ → ℚ) :
    calculate_entropy log2f [] = .ok 0 :=
  calculate_entropy_nil log2f

theorem indicator_sum_eq_countP :
    ∀ l1 l2 : List Byte,
      (List.zipWith (fun a b => if a = b then (0 : ℚ) else 1) l1 l2).sum =
        (((l1.zip l2).countP (fun p => p.1 != p.2) : ℕ) : ℚ)
  | [], _ => by simp
  | _ :: _, [] => by simp
  | a :: t1, b :: t2 => by
    have ih := indicator_sum_eq_countP t1 t2
    by_cases hab : a = b
    · simp [List.countP_cons, hab, ih]
    · simp [List.countP_cons, hab, ih, bne_iff_ne]
      ring

theorem zipWith_eq_map_zip (f : Byte → Byte → ℚ) :
    ∀ l1 l2 : List Byte,
      List.zipWith f l1 l2 = (l1.zip l2).map (fun p => f p.1 p.2)
  | [], _ => by simp
  | _ :: _, [] => by simp
  | a :: t1, b :: t2 => by
    simp [zipWith_eq_map_zip f t1 t2]

theorem indicator_sum_self (l : List Byte) :
    (List.zipWith (fun a b => if a = b then (0 : ℚ) else 1) l l).sum = 0 := by
  induction l with
  | nil => rfl
  | cons a t ih => simp [ih]

theorem absdiff_sum_self (l : List Byte) :
    (List.zipWith (fun a b => |(a.val : ℚ) - (b.val : ℚ)|) l l).sum = 0 := by
  induction l with
  | nil => rfl
  | cons a t ih => simp [ih]

/-- C3 counterexample: on the empty array (for instance the reshape of
an empty buffer, shape 0 by 1) calculate_npcr_uaci succeeds but both
numpy divisions are 0/0 = NaN, so the result is not (0.0, 0.0). -/
theorem C3_counterexample :
    calculate_npcr_uaci ⟨[0, 1], [], rfl⟩ ⟨[0, 1], [], rfl⟩ =
      .ok (none, none) ∧ (none : RF) ≠ some 0 := by
  refine ⟨by decide, by decide⟩

/-- C3 amended: for equal-shape arrays of positive size,
calculate_npcr_uaci returns npcr = 100 times the count of differing
positions over the total and uaci = 100 times the sum of absolute
differences over 255 times the total; it fails with AnalysisError
exactly when the shapes differ; npcr_uaci(X, X) = (0.0, 0.0) for every
NON-EMPTY array X (on size-0 arrays both values are NaN). -/
theorem C3_npcr_uaci (a b : NPArray) :
    (a.shape = b.shape → 0 < a.shape.prod →
      calculate_npcr_uaci a b =
        .ok (some (spec_npcr a b), some (spec_uaci a b))) ∧
    (a.shape ≠ b.shape →
      calculate_npcr_uaci a b =
        .error ⟨"NPCR/UACI calculation failed: Images must have the same dimensions"⟩) ∧
    (0 < a.shape.prod →
      calculate_npcr_uaci a a = .ok (some 0, some 0)) := by
  refine ⟨fun hsh hpos => ?_, fun hsh => ?_, fun hpos => ?_⟩
  · simp only [calculate_npcr_uaci]
    rw [if_neg (by simp [hsh]), if_neg (by omega), if_neg (by omega)]
    rw [indicator_sum_eq_countP, zipWith_eq_map_zip]
    rfl
  · simp only [calculate_npcr_uaci]
    rw [if_pos hsh]
  · simp only [calculate_npcr_uaci]
    rw [if_neg (by simp), if_neg (by omega), if_neg (by omega)]
    rw [indicator_sum_self, absdiff_sum_self]
    norm_num

/-- Witness for the amended C3: a concrete 2-by-1 array compared with
itself and with a differing array of the same shape, plus the shape
mismatch failure. -/
theorem C3_npcr_uaci_witness :
    calculate_npcr_uaci ⟨[2, 1], [0, 3], rfl⟩ ⟨[2, 1], [0, 3], rfl⟩ =
      .ok (some 0, some 0) ∧
    calculate_npcr_uaci ⟨[2, 1], [0, 3], rfl⟩ ⟨[2, 1], [1, 3], rfl⟩ =
      .ok (some (spec_npcr ⟨[2, 1], [0, 3], rfl⟩ ⟨[2, 1], [1, 3], rfl⟩),
        some (spec_uaci ⟨[2, 1], [0, 3], rfl⟩ ⟨[2, 1], [1, 3], rfl⟩)) ∧
    calculate_npcr_uaci ⟨[2, 1], [0, 3], rfl⟩ ⟨[1, 1], [0], rfl⟩ =
      .error ⟨"NPCR/UACI calculation failed: Images must have the same dimensions"⟩ :=
  ⟨(C3_npcr_uaci ⟨[2, 1], [0, 3], rfl⟩ ⟨[2, 1], [0, 3], rfl⟩).2.2 (by decide),
    (C3_npcr_uaci ⟨[2, 1], [0, 3], rfl⟩ ⟨[2, 1], [1, 3], rfl⟩).1 rfl (by decide),
    (C3_npcr_uaci ⟨[2, 1], [0, 3], rfl⟩ ⟨[1, 1], [0], rfl⟩).2.1 (by decide)⟩

theorem entropy_points_eq (e : ℚ) :
    (if 79 / 10 < e then (2 : Nat) else if 15 / 2 < e then 1 else 0) =
      spec_entropy_points e := by
  unfold spec_entropy_points
  by_cases h1 : 79 / 10 < e
  · simp [h1]
  · have he : e ≤ 79 / 10 := le_of_not_lt h1
    by_cases h2 : 15 / 2 < e
    · simp [h1, h2, he]
    · simp [h1, h2]

theorem corr_points_eq (m : ℚ) :
    (if m < 1 / 10 then (2 : Nat) else if m < 3 / 10 then 1 else 0) =
      spec_corr_points m := by
  unfold spec_corr_points
  by_cases h1 : m < 1 / 10
  · rw [if_pos h1, if_pos h1]
  · rw [if_neg h1, if_neg h1]
    by_cases h2 : m < 3 / 10
    · rw [if_pos h2, if_pos ⟨le_of_not_lt h1, h2⟩]
    · rw [if_neg h2, if_neg (fun hc => h2 hc.2)]

theorem npcr_points_eq (n : ℚ) :
    (if 99 < n then (2 : Nat) else if 90 < n then 1 else 0) =
      spec_npcr_points n := by
  unfold spec_npcr_points
  by_cases h1 : 99 < n
  · simp [h1]
  · have hn : n ≤ 99 := le_of_not_lt h1
    by_cases h2 : 90 < n
    · simp [h1, h2, hn]
    · simp [h1, h2]

theorem score_eq_spec (e m n : ℚ) :
    strength_score e (some m) (some n) =
      spec_entropy_points e + spec_corr_points m + spec_npcr_points n := by
  simp only [strength_score, RF.ltQ, RF.gtQ, decide_eq_true_eq]
  rw [entropy_points_eq, corr_points_eq, npcr_points_eq]

/-- C2: the scoring block reproduces the exact table of the
specification (same thresholds, point values and boundary kinds) for
all numeric metric values, and the three boundary examples of the claim
score 6 Strong, 3 Moderate and 0 Weak. -/
theorem C2_scoring_table (e m n : ℚ) :
    strength_score e (some m) (some n) =
      spec_entropy_points e + spec_corr_points m + spec_npcr_points n ∧
    verdict_of (strength_score e (some m) (some n)) = spec_verdict e m n ∧
    (strength_score (791 / 100) (some (5 / 100)) (some (995 / 10)) = 6 ∧
      verdict_of (strength_score (791 / 100) (some (5 / 100))
        (some (995 / 10))) = "Strong") ∧
    (strength_score (76 / 10) (some (2 / 10)) (some 95) = 3 ∧
      verdict_of (strength_score (76 / 10) (some (2 / 10)) (some 95)) =
        "Moderate") ∧
    (strength_score 7 (some (5 / 10)) (some 50) = 0 ∧
      verdict_of (strength_score 7 (some (5 / 10)) (some 50)) = "Weak") := by
  refine ⟨score_eq_spec e m n, ?_,
    by norm_num [strength_score, verdict_of, RF.ltQ, RF.gtQ],
    by norm_num [strength_score, verdict_of, RF.ltQ, RF.gtQ],
    by norm_num [strength_score, verdict_of, RF.ltQ, RF.gtQ]⟩
  rw [verdict_of, score_eq_spec e m n]
  rfl

theorem bxor_cancel (a p : Byte) : bxor (bxor a p) p = a := by
  apply Fin.ext
  show Nat.xor (Nat.xor a.val p.val) p.val = a.val
  exact Nat.xor_cancel_right p.val a.val

theorem xorBytes_length (a b : List Byte) :
    (xorBytes a b).length = min a.length b.length := by
  simp [xorBytes]

theorem xorBytes_cancel : ∀ a p : List Byte, a.length = p.length →
    xorBytes (xorBytes a p) p = a
  | [], [], _ => rfl
  | [], _ :: _, h => by simp at h
  | _ :: _, [], h => by simp at h
  | a :: ta, p :: tp, h => by
    have ih := xorBytes_cancel ta tp (by simpa using h)
    simp only [xorBytes, List.zipWith_cons_cons] at ih ⊢
    rw [bxor_cancel, ih]

theorem toBlocksAux_cons_block (f : Nat) (b R : List Byte)
    (hb : b.length = 16) :
    toBlocksAux (f + 1) (b ++ R) = b :: toBlocksAux f R := by
  match b, hb with
  | a :: tb, hb =>
    rw [List.cons_append]
    show toBlocksAux (f + 1) (a :: (tb ++ R)) = _
    rw [toBlocksAux, ← List.cons_append, List.take_left' hb,
      List.drop_left' hb]

theorem toBlocksAux_flatten : ∀ (bs : List (List Byte)) (fuel : Nat),
    (∀ b ∈ bs, b.length = 16) → bs.flatten.length ≤ fuel →
    toBlocksAux fuel bs.flatten = bs
  | [], fuel, _, _ => by cases fuel <;> rfl
  | b :: bs, fuel, hall, hfuel => by
    have hb : b.length = 16 := hall b (List.mem_cons_self b bs)
    rw [List.flatten_cons] at hfuel ⊢
    match fuel with
    | 0 =>
      exfalso
      have := List.length_append b bs.flatten
      omega
    | f + 1 =>
      rw [toBlocksAux_cons_block f b _ hb]
      have hlen : b.length + bs.flatten.length ≤ f + 1 := by
        simpa using hfuel
      rw [toBlocksAux_flatten bs f
        (fun x hx => hall x (List.mem_cons_of_mem b hx)) (by omega)]

/-- Splitting a flat concatenation of 16-byte blocks recovers exactly
those blocks. -/
theorem toBlocks_flatten (bs : List (List Byte))
    (hall : ∀ b ∈ bs, b.length = 16) :
    toBlocks bs.flatten = bs :=
  toBlocksAux_flatten bs _ hall le_rfl

theorem toBlocksAux_flatten_eq : ∀ (fuel : Nat) (l : List Byte),
    l.length ≤ fuel → (toBlocksAux fuel l).flatten = l
  | 0, l, h => by
    have hl : l = [] := List.length_eq_zero.mp (by omega)
    subst hl; rfl
  | _ + 1, [], _ => rfl
  | f + 1, a :: rest, h => by
    rw [toBlocksAux, List.flatten_cons,
      toBlocksAux_flatten_eq f ((a :: rest).drop 16)
        (by rw [List.length_drop]; simp at h ⊢; omega),
      List.take_append_drop]

/-- Flattening the 16-byte chunks of a byte string gives it back. -/
theorem toBlocks_flatten_eq (l : List Byte) :
    (toBlocks l).flatten = l :=
  toBlocksAux_flatten_eq l.length l le_rfl

theorem toBlocksAux_mem_length : ∀ (fuel : Nat) (l : List Byte),
    l.length ≤ fuel → l.length % 16 = 0 →
    ∀ c ∈ toBlocksAux fuel l, c.length = 16
  | 0, _, _, _ => by intro c hc; simp [toBlocksAux] at hc
  | _ + 1, [], _, _ => by intro c hc; simp [toBlocksAux] at hc
  | f + 1, a :: rest, hf, hm => by
    intro c hc
    have hlen : (a :: rest).length = rest.length + 1 := by simp
    rw [toBlocksAux] at hc
    rcases List.mem_cons.mp hc with rfl | hc
    · rw [List.length_take]
      omega
    · refine toBlocksAux_mem_length f _ ?_ ?_ c hc <;>
        rw [List.length_drop] <;> omega

/-- All 16-byte chunks of a byte string whose length is a multiple of
16 have length 16. -/
theorem toBlocks_mem_length (l : List Byte) (hm : l.length % 16 = 0) :
    ∀ c ∈ toBlocks l, c.length = 16 :=
  toBlocksAux_mem_length l.length l le_rfl hm

theorem flatten_length_16 : ∀ bs : List (List Byte),
    (∀ b ∈ bs, b.length = 16) → bs.flatten.length = 16 * bs.length
  | [], _ => rfl
  | b :: bs, hall => by
    rw [List.flatten_cons, List.length_append,
      hall b (List.mem_cons_self b bs),
      flatten_length_16 bs (fun x hx => hall x (List.mem_cons_of_mem b hx))]
    simp
    ring

theorem cbcEncBlocks_length (E : List Byte → List Byte) :
    ∀ (bs : List (List Byte)) (prev : List Byte),
      (cbcEncBlocks E prev bs).length = bs.length
  | [], _ => rfl
  | _ :: bs, prev => by
    simp only [cbcEncBlocks, List.length_cons]
    rw [cbcEncBlocks_length E bs]

theorem cbcEncBlocks_blocks_16 (E : List Byte → List Byte)
    (hE : ∀ b, b.length = 16 → (E b).length = 16) :
    ∀ (bs : List (List Byte)) (prev : List Byte),
      (∀ b ∈ bs, b.length = 16) → prev.length = 16 →
      ∀ c ∈ cbcEncBlocks E prev bs, c.length = 16
  | [], _, _, _ => by intro c hc; simp [cbcEncBlocks] at hc
  | b :: bs, prev, hall, hprev => by
    intro c hc
    have hb : b.length = 16 := hall b (List.mem_cons_self b bs)
    have hxl : (xorBytes b prev).length = 16 := by
      rw [xorBytes_length, hb, hprev]
      exact Nat.min_self 16
    have hcl : (E (xorBytes b prev)).length = 16 := hE _ hxl
    simp only [cbcEncBlocks] at hc
    rcases List.mem_cons.mp hc with rfl | hc
    · exact hcl
    · exact cbcEncBlocks_blocks_16 E hE bs _
        (fun x hx => hall x (List.mem_cons_of_mem b hx)) hcl c hc

theorem cbcDec_cbcEnc (E Dc : List Byte → List Byte)
    (hED : ∀ b, b.length = 16 → Dc (E b) = b)
    (hE : ∀ b, b.length = 16 → (E b).length = 16) :
    ∀ (bs : List (List Byte)) (prev : List Byte),
      (∀ b ∈ bs, b.length = 16) → prev.length = 16 →
      cbcDecBlocks Dc prev (cbcEncBlocks E prev bs) = bs
  | [], _, _, _ => rfl
  | b :: bs, prev, hall, hprev => by
    have hb : b.length = 16 := hall b (List.mem_cons_self b bs)
    have hxl : (xorBytes b prev).length = 16 := by
      rw [xorBytes_length, hb, hprev]
      exact Nat.min_self 16
    simp only [cbcEncBlocks, cbcDecBlocks]
    rw [hED _ hxl, xorBytes_cancel b prev (by omega),
      cbcDec_cbcEnc E Dc hED hE bs _
        (fun x hx => hall x (List.mem_cons_of_mem b hx)) (hE _ hxl)]

theorem pkcs7pad_length (P : List Byte) :
    (pkcs7pad P).length = P.length + (16 - P.length % 16) := by
  simp [pkcs7pad]

theorem pkcs7pad_mod (P : List Byte) : (pkcs7pad P).length % 16 = 0 := by
  rw [pkcs7pad_length]
  omega

/-- Unpadding inverts padding: the PKCS#7 round trip. -/
theorem pkcs7unpad_pad (P : List Byte) : pkcs7unpad (pkcs7pad P) = .ok P := by
  have hk1 : 1 ≤ 16 - P.length % 16 := by omega
  have hk16 : 16 - P.length % 16 ≤ 16 := by omega
  have hlen := pkcs7pad_length P
  have hmod := pkcs7pad_mod P
  have hpad : pkcs7pad P = P ++ List.replicate (16 - P.length % 16)
      (padByte P.length) := rfl
  have hne : List.replicate (16 - P.length % 16) (padByte P.length) ≠ [] := by
    intro hnil
    have hln := congrArg List.length hnil
    simp at hln
    omega
  have hval : (padByte P.length).val = 16 - P.length % 16 := rfl
  have hlast : (pkcs7pad P).getLast? = some (padByte P.length) := by
    conv_lhs => rw [hpad]
    rw [List.getLast?_append_of_ne_nil P hne, List.getLast?_replicate,
      if_neg (by omega)]
  have harith : (pkcs7pad P).length - (padByte P.length).val = P.length := by
    rw [hlen, hval]
    omega
  have hdrop : (pkcs7pad P).drop ((pkcs7pad P).length - (padByte P.length).val) =
      List.replicate (padByte P.length).val (padByte P.length) := by
    rw [harith, hval]
    conv_lhs => rw [hpad]
    exact List.drop_left P _
  have htake : (pkcs7pad P).take ((pkcs7pad P).length - (padByte P.length).val) =
      P := by
    rw [harith]
    conv_lhs => rw [hpad]
    exact List.take_left P _
  rw [pkcs7unpad, if_neg (by omega), if_neg (by omega), hlast]
  dsimp only
  rw [if_neg (by rw [hval]; omega), if_pos hdrop, htake]

/-- C8: for every plaintext and non-empty password the ciphertext of
encrypt_image has length 16 * (len / 16 + 1): the PKCS#7-padded length,
a non-zero multiple of 16, with a full extra block when the plaintext
length is already a multiple of 16.  The block cipher parameter maps
16-byte blocks to 16-byte blocks, as AES does. -/
theorem C8_ciphertext_length (E : List Byte → List Byte → List Byte)
    (prf : String → List Byte → Nat → List Byte)
    (hE : ∀ k b, b.length = 16 → (E k b).length = 16)
    (saltR ivR P : List Byte) (pw : String)
    (hiv : ivR.length = 16) (hpw : pw ≠ "") :
    ∃ ct, encrypt_image E prf saltR ivR P pw = .ok (saltR, ivR, ct) ∧
      ct.length = 16 * (P.length / 16 + 1) ∧
      ct.length = (pkcs7pad P).length ∧
      ct.length % 16 = 0 ∧ 0 < ct.length := by
  have hkd : derive_key prf pw none 200000 saltR =
      .ok (prf pw saltR 200000, saltR) := by
    simp [derive_key, hpw]
  have henc : encrypt_image E prf saltR ivR P pw =
      .ok (saltR, ivR, (cbcEncBlocks (E (prf pw saltR 200000)) ivR
        (toBlocks (pkcs7pad P))).flatten) := by
    rw [encrypt_image, hkd]
  have hblocks : ∀ c ∈ toBlocks (pkcs7pad P), c.length = 16 :=
    toBlocks_mem_length _ (pkcs7pad_mod P)
  have hencblocks : ∀ c ∈ cbcEncBlocks (E (prf pw saltR 200000)) ivR
      (toBlocks (pkcs7pad P)), c.length = 16 :=
    cbcEncBlocks_blocks_16 _ (hE _) _ _ hblocks hiv
  have hctlen : (cbcEncBlocks (E (prf pw saltR 200000)) ivR
      (toBlocks (pkcs7pad P))).flatten.length =
      16 * (toBlocks (pkcs7pad P)).length := by
    rw [flatten_length_16 _ hencblocks, cbcEncBlocks_length]
  have hpadlen : (pkcs7pad P).length = 16 * (toBlocks (pkcs7pad P)).length := by
    conv_lhs => rw [← toBlocks_flatten_eq (pkcs7pad P)]
    exact flatten_length_16 _ hblocks
  have hplen := pkcs7pad_length P
  exact ⟨_, henc, by omega, by omega, by omega, by omega⟩

/-- Witness for C8: the identity block cipher on a 3-byte plaintext
yields a 16-byte ciphertext, one full padded block. -/
theorem C8_ciphertext_length_witness :
    (List.replicate 16 (1 : Byte)).length = 16 ∧ ("a" : String) ≠ "" ∧
    (∃ ct, encrypt_image (fun _ b => b) (fun _ s _ => s)
        (List.replicate 16 (0 : Byte)) (List.replicate 16 (1 : Byte))
        [0, 1, 2] "a" = .ok (List.replicate 16 (0 : Byte),
          List.replicate 16 (1 : Byte), ct) ∧
      ct.length = 16 * (([0, 1, 2] : List Byte).length / 16 + 1) ∧
      ct.length = (pkcs7pad [0, 1, 2]).length ∧
      ct.length % 16 = 0 ∧ 0 < ct.length) :=
  ⟨by decide, by decide,
    C8_ciphertext_length (fun _ b => b) (fun _ s _ => s)
      (fun _ _ h => h) _ _ _ _ (by decide) (by decide)⟩

/-- C1: for every plaintext and non-empty password, combining the
(salt, iv, ciphertext) triple of encrypt_image, splitting the container
back and decrypting with the same password returns exactly the original
plaintext.  The block cipher parameters satisfy the AES properties:
decryption inverts encryption on 16-byte blocks and block length is
preserved; the two urandom outputs have their real 16-byte length. -/
theorem C1_round_trip (E Dc : List Byte → List Byte → List Byte)
    (prf : String → List Byte → Nat → List Byte)
    (hED : ∀ k b, b.length = 16 → Dc k (E k b) = b)
    (hE : ∀ k b, b.length = 16 → (E k b).length = 16)
    (saltR ivR P : List Byte) (pw : String) (rand : List Byte)
    (hs : saltR.length = 16) (hiv : ivR.length = 16) (hpw : pw ≠ "") :
    ∃ salt iv ct,
      encrypt_image E prf saltR ivR P pw = .ok (salt, iv, ct) ∧
      split_encrypted_data (combine_encrypted_data salt iv ct) =
        .ok (salt, iv, ct) ∧
      decrypt_image Dc prf rand ct salt iv pw = .ok P := by
  have hkd : derive_key prf pw none 200000 saltR =
      .ok (prf pw saltR 200000, saltR) := by
    simp [derive_key, hpw]
  have henc : encrypt_image E prf saltR ivR P pw =
      .ok (saltR, ivR, (cbcEncBlocks (E (prf pw saltR 200000)) ivR
        (toBlocks (pkcs7pad P))).flatten) := by
    rw [encrypt_image, hkd]
  refine ⟨saltR, ivR, _, henc, split_combine_eq _ _ _ hs hiv, ?_⟩
  have hsne : saltR ≠ [] := by
    intro h
    rw [h] at hs
    simp at hs
  have hkd2 : derive_key prf pw (some saltR) 200000 rand =
      .ok (prf pw saltR 200000, saltR) := by
    simp [derive_key, hpw, hsne]
  have hblocks : ∀ c ∈ toBlocks (pkcs7pad P), c.length = 16 :=
    toBlocks_mem_length _ (pkcs7pad_mod P)
  have hencblocks : ∀ c ∈ cbcEncBlocks (E (prf pw saltR 200000)) ivR
      (toBlocks (pkcs7pad P)), c.length = 16 :=
    cbcEncBlocks_blocks_16 _ (hE _) _ _ hblocks hiv
  have hctlen : (cbcEncBlocks (E (prf pw saltR 200000)) ivR
      (toBlocks (pkcs7pad P))).flatten.length =
      16 * (cbcEncBlocks (E (prf pw saltR 200000)) ivR
        (toBlocks (pkcs7pad P))).length :=
    flatten_length_16 _ hencblocks
  have hsplit : toBlocks ((cbcEncBlocks (E (prf pw saltR 200000)) ivR
      (toBlocks (pkcs7pad P))).flatten) =
      cbcEncBlocks (E (prf pw saltR 200000)) ivR (toBlocks (pkcs7pad P)) :=
    toBlocks_flatten _ hencblocks
  have hdec : cbcDecBlocks (Dc (prf pw saltR 200000)) ivR
      (cbcEncBlocks (E (prf pw saltR 200000)) ivR (toBlocks (pkcs7pad P))) =
      toBlocks (pkcs7pad P) :=
    cbcDec_cbcEnc _ _ (hED _) (hE _) _ _ hblocks hiv
  simp only [decrypt_image, hkd2]
  rw [if_neg (by omega)]
  rw [hsplit, hdec, toBlocks_flatten_eq, pkcs7unpad_pad]

/-- Witness for C1: the identity block cipher, a concrete 3-byte
plaintext and concrete 16-byte random salt and iv round-trip. -/
theorem C1_round_trip_witness :
    (List.replicate 16 (0 : Byte)).length = 16 ∧
    (List.replicate 16 (1 : Byte)).length = 16 ∧ ("a" : String) ≠ "" ∧
    (∃ salt iv ct,
      encrypt_image (fun _ b => b) (fun _ s _ => s)
        (List.replicate 16 (0 : Byte)) (List.replicate 16 (1 : Byte))
        [0, 1, 2] "a" = .ok (salt, iv, ct) ∧
      split_encrypted_data (combine_encrypted_data salt iv ct) =
        .ok (salt, iv, ct) ∧
      decrypt_image (fun _ b => b) (fun _ s _ => s) [] ct salt iv "a" =
        .ok [0, 1, 2]) :=
  ⟨by decide, by decide, by decide,
    C1_round_trip (fun _ b => b) (fun _ b => b) (fun _ s _ => s)
      (fun _ _ _ => rfl) (fun _ _ h => h) _ _ _ _ _
      (by decide) (by decide) (by decide)⟩

theorem map_singleton_dropLast_flatten (l : List Byte) :
    ((l.map (fun b => [(b.val : ℚ)])).map List.dropLast).flatten = [] := by
  induction l with
  | nil => rfl
  | cons a t ih => simp [ih]

theorem diag_singleton_dropLast_flatten (l : List Byte) :
    (((l.map (fun b => [(b.val : ℚ)])).dropLast).map List.dropLast).flatten =
      [] := by
  rw [← List.map_dropLast]
  exact map_singleton_dropLast_flatten l.dropLast

theorem meanRF_none_head (x y : RF) : meanRF [none, x, y] = none := rfl

theorem strength_score_nan_corr_le (e : ℚ) (npcr : RF) :
    strength_score e none npcr ≤ 4 := by
  have hmid : (if RF.ltQ none (1 / 10) then (2 : Nat)
      else if RF.ltQ none (3 / 10) then 1 else 0) = 0 := rfl
  have h1 : (if 79 / 10 < e then (2 : Nat)
      else if 15 / 2 < e then 1 else 0) ≤ 2 := by
    split_ifs <;> omega
  have h2 : (if RF.gtQ npcr 99 then (2 : Nat)
      else if RF.gtQ npcr 90 then 1 else 0) ≤ 2 := by
    split_ifs <;> omega
  unfold strength_score
  rw [hmid]
  omega

theorem verdict_of_le4 (s : Nat) (hs : s ≤ 4) :
    verdict_of s ≠ "Strong" ∧
      (verdict_of s = "Moderate" ∨ verdict_of s = "Weak") := by
  unfold verdict_of
  rw [if_neg (by omega)]
  by_cases h3 : 3 ≤ s
  · rw [if_pos h3]
    exact ⟨by decide, Or.inl rfl⟩
  · rw [if_neg h3]
    exact ⟨by decide, Or.inr rfl⟩

/-- C9: analyze_encryption_strength reshapes the encrypted bytes to a
single-column array, so the horizontal and diagonal shifted views are
empty and their correlation coefficients are NaN; the mean absolute
correlation is then NaN, the correlation branch adds no points, the
score never exceeds 4, and every successful run yields verdict Moderate
or Weak, never Strong. -/
theorem C9_never_strong (log2f sqrtf : ℚ → ℚ) (orig enc : List Byte)
    (res : AnalysisResult)
    (h : analyze_encryption_strength log2f sqrtf orig enc = .ok res) :
    res.horizontal = none ∧ res.diagonal = none ∧
    res.verdict ≠ "Strong" ∧
    (res.verdict = "Moderate" ∨ res.verdict = "Weak") := by
  by_cases hlen : orig.length = enc.length
  · have hsh : (singleColumn orig).shape = (singleColumn enc).shape := by
      simp [singleColumn, hlen]
    have hnp : ∃ v u,
        calculate_npcr_uaci (singleColumn orig) (singleColumn enc) =
          .ok (v, u) := by
      simp only [calculate_npcr_uaci]
      rw [if_neg (by simp [hsh])]
      exact ⟨_, _, rfl⟩
    obtain ⟨v, u, hnp⟩ := hnp
    have hH : corrcoef sqrtf
        ((enc.map (fun b => [(b.val : ℚ)])).map List.dropLast).flatten
        ((enc.map (fun b => [(b.val : ℚ)])).map (List.drop 1)).flatten =
        none := by
      rw [map_singleton_dropLast_flatten]
      rfl
    have hD : corrcoef sqrtf
        (((enc.map (fun b => [(b.val : ℚ)])).dropLast).map
          List.dropLast).flatten
        (((enc.map (fun b => [(b.val : ℚ)])).drop 1).map
          (List.drop 1)).flatten = none := by
      rw [diag_singleton_dropLast_flatten]
      rfl
    simp only [analyze_encryption_strength, calculate_entropy,
      calculate_correlation, hnp] at h
    have hsub := Except.ok.inj h
    rw [← hsub]
    dsimp only
    rw [hH, hD]
    refine ⟨rfl, rfl, ?_, ?_⟩
    · exact (verdict_of_le4 _ (strength_score_nan_corr_le _ _)).1
    · exact (verdict_of_le4 _ (strength_score_nan_corr_le _ _)).2
  · exfalso
    have hsh : (singleColumn orig).shape ≠ (singleColumn enc).shape := by
      simp [singleColumn, hlen]
    have hnp : calculate_npcr_uaci (singleColumn orig) (singleColumn enc) =
        .error ⟨"NPCR/UACI calculation failed: Images must have the same dimensions"⟩ := by
      simp only [calculate_npcr_uaci]
      rw [if_pos hsh]
    simp only [analyze_encryption_strength, calculate_entropy,
      calculate_correlation, hnp] at h
    exact Except.noConfusion h

/-- Witness for C9: a concrete successful run on two empty buffers
produces NaN correlations and the verdict Weak, not Strong. -/
theorem C9_never_strong_witness :
    analyze_encryption_strength (fun _ => 0) (fun _ => 0) [] [] =
      .ok ⟨0, none, none, none, none, none, "Weak"⟩ ∧
    ((⟨0, none, none, none, none, none, "Weak"⟩ :
        AnalysisResult).horizontal = none ∧
      (⟨0, none, none, none, none, none, "Weak"⟩ :
        AnalysisResult).diagonal = none ∧
      (⟨0, none, none, none, none, none, "Weak"⟩ :
        AnalysisResult).verdict ≠ "Strong" ∧
      ((⟨0, none, none, none, none, none, "Weak"⟩ :
        AnalysisResult).verdict = "Moderate" ∨
       (⟨0, none, none, none, none, none, "Weak"⟩ :
        AnalysisResult).verdict = "Weak")) := by
  have hana : analyze_encryption_strength (fun _ => 0) (fun _ => 0) [] [] =
      .ok ⟨0, none, none, none, none, none, "Weak"⟩ := by
    simp only [analyze_encryption_strength, calculate_entropy_nil,
      calculate_correlation, calculate_npcr_uaci, singleColumn]
    norm_num [corrcoef, meanRF, RF.abs, RF.ltQ, RF.gtQ, strength_score,
      verdict_of]
  exact ⟨hana, C9_never_strong (fun _ => 0) (fun _ => 0) [] [] _ hana⟩

end ImgEnc
